import Mathlib

/-!
# Verification of the Rishab Gems invoice billing core

Shallow embedding of the billing-summary arithmetic of
`generate_filled_invoice` (src/app.py lines 172-181, duplicated in
src/working_app.py lines 94-103 and src/ui.py lines 105-114), of the
line-item table-filling capacity logic (src/app.py lines 146-149), and of
the amount-in-words converter (the module `number_to_words.py` imported by
src/app.py is absent from the repository sources, so it is modelled from
the specification).

Python `float` values are modelled as exact rationals (`ℚ`); the
refinement in which every arithmetic operation additionally rounds to the
nearest IEEE-754 binary64 value (`roundD`, `addD`, `sumD`,
`floatSubtotal`) is defined alongside and is used for the claim whose
subject is binary rounding itself.
-/

/-- The computed billing triple: `subtotal`, `rounding_value` and
`net_payable` of src/app.py lines 178-181. -/
structure BillingSummary where
  subtotal : ℚ
  rounding : ℚ
  net_payable : ℚ
deriving DecidableEq

/-- Python's built-in `round` to zero decimal places, as applied at
src/app.py line 179 (`round(subtotal)`): round to the nearest integer with
ties going to the even neighbour (round-half-to-even). -/
def pyRound (q : ℚ) : ℤ :=
  let f := ⌊q⌋
  let r := q - f
  if r < 1/2 then f
  else if 1/2 < r then f + 1
  else if f % 2 = 0 then f else f + 1

/-- One line-item "Amount (₹)" cell after `pd.to_numeric(..., errors="coerce")`
followed by the `pd.isna` check of src/app.py lines 174-177: `some q` is a
cell that parsed to the (finite) number `q`; `none` is a cell whose value
failed numeric parsing (or was NaN) and is replaced by `0.0`. -/
def toAmount (v : Option ℚ) : ℚ :=
  v.getD 0

/-- src/app.py lines 178-181: `subtotal = sum(amounts)`,
`rounded_total = float(round(subtotal))`,
`rounding_value = rounded_total - subtotal`, `net_payable = rounded_total`,
with Python floats modelled as exact rationals. -/
def summarize (amounts : List ℚ) : BillingSummary :=
  let subtotal := amounts.foldl (· + ·) 0
  let rounded_total : ℚ := ((pyRound subtotal : ℤ) : ℚ)
  { subtotal := subtotal
    rounding := rounded_total - subtotal
    net_payable := rounded_total }

/-- src/app.py lines 172-181 taken together: each supplied row's
"Amount (₹)" cell is coerced by `toAmount` and the resulting list is
summarised. -/
def summarizeRows (rows : List (Option ℚ)) : BillingSummary :=
  summarize (rows.map toAmount)

/-- src/app.py line 146: `rows_to_fill = min(len(rows), available_data_rows)`,
the number of line-item rows actually written into the template table. -/
def rows_to_fill (rows : List (Option ℚ)) (available_data_rows : ℕ) : ℕ :=
  min rows.length available_data_rows

/-- src/app.py lines 146-149: the rows written into the template's
line-items table are exactly the first `rows_to_fill` supplied rows. -/
def writtenRows (rows : List (Option ℚ)) (available_data_rows : ℕ) : List (Option ℚ) :=
  rows.take (rows_to_fill rows available_data_rows)

/-- Round-half-up to the nearest integer, ties away from zero: the rounding
policy that the specification asserts the source implements (spec §4.2).
This definition follows the spec's words and exists to be compared against
the source's `pyRound`. -/
def round_half_up (q : ℚ) : ℤ :=
  if 0 ≤ q then ⌊q + 1/2⌋ else -⌊-q + 1/2⌋

section FloatModel

/-!
The exact-rational `summarize` above abstracts from the binary
representation of Python floats.  For the claim whose subject is that
representation (decimal drift of the float sum), the model below follows
IEEE-754 binary64 semantics exactly: a float is a dyadic value `m·2^e`,
and every operation rounds its exact result to 53 bits of mantissa with
round-to-nearest, ties-to-even.  All computations are over `ℤ`/`ℕ` so
that concrete runs reduce in the kernel.
-/

/-- Number of binary digits of `n`, with explicit fuel so that it reduces
definitionally in the kernel. -/
def bitsAux : ℕ → ℕ → ℕ
  | 0, _ => 0
  | fuel + 1, n => if n = 0 then 0 else bitsAux fuel (n / 2) + 1

/-- Number of binary digits of `n` (`bits 0 = 0`, `bits 1 = 1`, `bits 2 = 2`). -/
def bits (n : ℕ) : ℕ :=
  bitsAux n n

/-- `2 ^ e` in `ℚ` for an integer exponent `e`, via natural powers. -/
def pow2 (e : ℤ) : ℚ :=
  if 0 ≤ e then ((2 ^ e.toNat : ℕ) : ℚ) else 1 / ((2 ^ (-e).toNat : ℕ) : ℚ)

/-- A (not necessarily normalised) dyadic rational `m·2^e`: the exact value
of an IEEE-754 binary64 number. -/
structure Dyadic where
  m : ℤ
  e : ℤ
deriving DecidableEq

/-- The exact rational value of a dyadic number. -/
def dval (x : Dyadic) : ℚ :=
  (x.m : ℚ) * pow2 x.e

/-- Round `a / b` (with `b > 0`) to the nearest natural number, ties to
even: the mantissa-rounding step of IEEE round-to-nearest-even. -/
def divRound (a b : ℕ) : ℕ :=
  let q := a / b
  let r := a % b
  if 2 * r < b then q
  else if b < 2 * r then q + 1
  else if q % 2 = 0 then q else q + 1

/-- Round a dyadic value to the nearest IEEE-754 binary64 value: keep at
most 53 mantissa bits (ties to even), with the exponent clamped below at
the subnormal scale `2^-1074`.  Overflow to infinity is not modelled; every
value in the claims is far below the overflow threshold. -/
def roundD (x : Dyadic) : Dyadic :=
  if x.m = 0 then ⟨0, 0⟩
  else
    let n := x.m.natAbs
    let c : ℤ := (bits n : ℤ) - 1 + x.e
    let er : ℤ := if c - 52 ≤ -1074 then -1074 else c - 52
    let s : ℤ := er - x.e
    if s ≤ 0 then ⟨x.m * ((2 ^ (-s).toNat : ℕ) : ℤ), er⟩
    else
      let n2 := divRound n (2 ^ s.toNat)
      ⟨if x.m < 0 then -(n2 : ℤ) else (n2 : ℤ), er⟩

/-- IEEE binary64 addition: align the two dyadics on the smaller exponent,
add exactly, then round to the nearest double. -/
def addD (x y : Dyadic) : Dyadic :=
  let e0 : ℤ := if x.e ≤ y.e then x.e else y.e
  roundD ⟨x.m * ((2 ^ (x.e - e0).toNat : ℕ) : ℤ) + y.m * ((2 ^ (y.e - e0).toNat : ℕ) : ℤ), e0⟩

/-- Python `sum(...)` over floats: left-to-right binary64 accumulation
starting from `0` (src/app.py line 178 under true float semantics). -/
def sumD (l : List Dyadic) : Dyadic :=
  l.foldl addD ⟨0, 0⟩

/-- The IEEE-754 binary64 value nearest to the non-negative fraction
`num / den` (with `den > 0`): how Python stores a parsed decimal amount as
a float. -/
def ratToD (num den : ℕ) : Dyadic :=
  if num = 0 then ⟨0, 0⟩
  else
    let c : ℤ := (bits num : ℤ) - (bits den : ℤ)
    let cl : ℤ := if den * 2 ^ c.toNat ≤ num * 2 ^ (-c).toNat then c else c - 1
    let er : ℤ := if cl - 52 ≤ -1074 then -1074 else cl - 52
    if er ≤ 0 then ⟨(divRound (num * 2 ^ (-er).toNat) den : ℤ), er⟩
    else ⟨(divRound num (den * 2 ^ er.toNat) : ℤ), er⟩

/-- The subtotal of src/app.py line 178 (`subtotal = sum(amounts)`) under
true IEEE-754 binary64 float semantics, for line-item amounts given in
decimal minor units (cents/paise): each amount `c/100` is stored as its
nearest double and the list is summed left to right in float arithmetic. -/
def floatSubtotal (cents : List ℕ) : ℚ :=
  dval (sumD (cents.map (fun c => ratToD c 100)))

end FloatModel

section WordsModel

/-- Error conditions of the amount-in-words converter (spec §7): a negative
or non-finite amount, or an amount beyond the defined scale words. -/
inductive WordsError
  | invalidAmount
  | unsupportedMagnitude
deriving DecidableEq

/-- A Python float argument as handed to the converter: either one of the
non-finite values or a finite value with its exact rational magnitude. -/
inductive FloatVal
  | nan
  | posInf
  | negInf
  | fin (q : ℚ)

/-- Modelled from the spec: the irregular unit names 1-19 of the 0-99
naming table (spec §4.1 step 4); out-of-range arguments give `""`. -/
def onesWord : ℕ → String
  | 1 => "One"
  | 2 => "Two"
  | 3 => "Three"
  | 4 => "Four"
  | 5 => "Five"
  | 6 => "Six"
  | 7 => "Seven"
  | 8 => "Eight"
  | 9 => "Nine"
  | 10 => "Ten"
  | 11 => "Eleven"
  | 12 => "Twelve"
  | 13 => "Thirteen"
  | 14 => "Fourteen"
  | 15 => "Fifteen"
  | 16 => "Sixteen"
  | 17 => "Seventeen"
  | 18 => "Eighteen"
  | 19 => "Nineteen"
  | _ => ""

/-- Modelled from the spec: the tens names 20/30/…/90 of the 0-99 naming
table (spec §4.1 step 4), indexed by the tens digit. -/
def tensWord : ℕ → String
  | 2 => "Twenty"
  | 3 => "Thirty"
  | 4 => "Forty"
  | 5 => "Fifty"
  | 6 => "Sixty"
  | 7 => "Seventy"
  | 8 => "Eighty"
  | 9 => "Ninety"
  | _ => ""

/-- Modelled from the spec: the 0-99 naming table (spec §4.1 step 4): 1-19
irregular, tens names combined with a units word when the remainder is
non-zero (21 ↦ "Twenty One"). -/
def belowHundredWords (n : ℕ) : String :=
  if n < 20 then onesWord n
  else if n % 10 = 0 then tensWord (n / 10)
  else tensWord (n / 10) ++ " " ++ onesWord (n % 10)

/-- Modelled from the spec: the hundreds group 0-999 (spec §4.1 step 3):
hundreds digit plus the 0-99 naming table. -/
def belowThousandWords (n : ℕ) : String :=
  if n < 100 then belowHundredWords n
  else if n % 100 = 0 then onesWord (n / 100) ++ " Hundred"
  else onesWord (n / 100) ++ " Hundred " ++ belowHundredWords (n % 100)

/-- Modelled from the spec: the Indian-grouping scale words for the
successive two-digit groups above the hundreds group (spec §4.1 step 3).
The spec names thousand (10^3), lakh (10^5) and crore (10^7) and requires
further scale words up to the 10^17 ceiling; the conventional names of the
four remaining groups are used for them. -/
def scaleWords : List String :=
  ["Thousand", "Lakh", "Crore", "Arab", "Kharab", "Neel", "Padma"]

/-- Modelled from the spec: render the successive two-digit groups of `n`
with their scale words, most significant first, skipping zero groups
(spec §4.1 step 3). -/
def upperGroupWords : ℕ → List String → List String
  | _, [] => []
  | n, sc :: rest =>
    if n = 0 then []
    else
      upperGroupWords (n / 100) rest ++
        (if n % 100 = 0 then [] else [belowHundredWords (n % 100) ++ " " ++ sc])

/-- Modelled from the spec: the words for a positive integer amount below
10^17: last three digits as the hundreds group, then two-digit groups with
scale words, joined most significant first with single spaces, zero groups
skipped (spec §4.1 step 3). -/
def intWords (n : ℕ) : String :=
  String.intercalate " "
    (upperGroupWords (n / 1000) scaleWords ++
      (if n % 1000 = 0 then [] else [belowThousandWords (n % 1000)]))

/-- Modelled from the spec: the words result for a finite non-negative
amount split into integer part `I` and subunit part `F ∈ [0,99]`
(spec §4.1 steps 2-6): fail above the scale ceiling, render 0/0 as "Zero",
append the subunit phrase after " and " when `F > 0`. -/
def wordsFin (I F : ℕ) : Except WordsError String :=
  if 10 ^ 17 ≤ I then .error .unsupportedMagnitude
  else if I = 0 ∧ F = 0 then .ok "Zero"
  else if F = 0 then .ok (intWords I)
  else .ok (intWords I ++ " and " ++ belowHundredWords F)

/-- Modelled from the spec: `to_words` of §4.1 — the module
`number_to_words.py` that src/app.py imports (`num2words`) is not among
the repository sources, so the converter is modelled from the spec's
algorithm.  Negative and non-finite inputs fail with `InvalidAmount`
(spec §4.1 edge cases); a finite non-negative input is split into integer
part `⌊q⌋` and fractional part rounded to a subunit count in [0,99]
(spec §4.1 steps 1 and 5). -/
def to_words (v : FloatVal) : Except WordsError String :=
  match v with
  | .nan => .error .invalidAmount
  | .posInf => .error .invalidAmount
  | .negInf => .error .invalidAmount
  | .fin q =>
    if q < 0 then .error .invalidAmount
    else wordsFin (⌊q⌋).toNat (min (round (100 * (q - ⌊q⌋))).toNat 99)

end WordsModel

section Helpers

theorem foldl_add_eq_sum (l : List ℚ) (init : ℚ) : l.foldl (· + ·) init = init + l.sum := by
  induction l generalizing init with
  | nil => simp
  | cons a t ih => simp [ih, List.sum_cons]; ring

theorem summarize_def (l : List ℚ) :
    summarize l =
      ⟨l.sum, ((pyRound l.sum : ℤ) : ℚ) - l.sum, ((pyRound l.sum : ℤ) : ℚ)⟩ := by
  simp [summarize, foldl_add_eq_sum]

theorem pyRound_floor {q : ℚ} {f : ℤ} (h1 : (f : ℚ) ≤ q) (h2 : q < (f : ℚ) + 1/2) :
    pyRound q = f := by
  have hf : ⌊q⌋ = f := Int.floor_eq_iff.mpr ⟨h1, by linarith⟩
  simp only [pyRound, hf]
  split_ifs <;> first | rfl | (exfalso; linarith)

theorem pyRound_up {q : ℚ} {f : ℤ} (h1 : (f : ℚ) + 1/2 < q) (h2 : q < (f : ℚ) + 1) :
    pyRound q = f + 1 := by
  have hf : ⌊q⌋ = f := Int.floor_eq_iff.mpr ⟨by linarith, h2⟩
  simp only [pyRound, hf]
  split_ifs <;> first | rfl | (exfalso; linarith)

theorem pyRound_tie_even {q : ℚ} {f : ℤ} (h : q = (f : ℚ) + 1/2) (he : f % 2 = 0) :
    pyRound q = f := by
  have hf : ⌊q⌋ = f := Int.floor_eq_iff.mpr ⟨by simp [h], by rw [h]; linarith⟩
  simp only [pyRound, hf]
  split_ifs <;> first | rfl | omega | (exfalso; linarith)

theorem pyRound_cases (q : ℚ) : pyRound q = ⌊q⌋ ∨ pyRound q = ⌊q⌋ + 1 := by
  simp only [pyRound]
  split_ifs <;> simp

theorem pyRound_abs_le (q : ℚ) : |(pyRound q : ℚ) - q| ≤ 1/2 := by
  have hle := Int.floor_le q
  have hlt := Int.lt_floor_add_one q
  simp only [pyRound]
  split_ifs with h1 h2 h3 <;> rw [abs_le] <;> push_cast <;> constructor <;> linarith

theorem pyRound_tie_imp_even (q : ℚ) (h : q - (⌊q⌋ : ℚ) = 1/2) : (pyRound q) % 2 = 0 := by
  simp only [pyRound]
  split_ifs with h1 h2 h3
  · linarith
  · linarith
  · exact h3
  · omega

theorem pyRound_strict (q : ℚ) (h : q - (⌊q⌋ : ℚ) ≠ 1/2) : |(pyRound q : ℚ) - q| < 1/2 := by
  have hle := Int.floor_le q
  have hlt := Int.lt_floor_add_one q
  have h' : q - (⌊q⌋ : ℚ) < 1/2 ∨ 1/2 < q - (⌊q⌋ : ℚ) := by
    rcases lt_trichotomy (q - (⌊q⌋ : ℚ)) (1/2) with hc | hc | hc
    · exact Or.inl hc
    · exact absurd hc h
    · exact Or.inr hc
  simp only [pyRound]
  split_ifs with h1 h2 h3 <;> rw [abs_lt] <;> push_cast <;> constructor <;>
    first
      | linarith
      | (rcases h' with hcc | hcc <;> linarith)

theorem pyRound_nearest (q : ℚ) (k : ℤ) : |q - (pyRound q : ℚ)| ≤ |q - (k : ℚ)| := by
  have hle := Int.floor_le q
  have hlt := Int.lt_floor_add_one q
  have hb := pyRound_abs_le q
  rw [abs_le] at hb
  rcases pyRound_cases q with h | h <;> rw [h] at hb ⊢ <;>
    rcases le_or_lt k ⌊q⌋ with hk | hk
  · have hk' : (k : ℚ) ≤ (⌊q⌋ : ℚ) := by exact_mod_cast hk
    rw [abs_of_nonneg (by linarith), abs_of_nonneg (by linarith)]
    linarith
  · have hk' : (⌊q⌋ : ℚ) + 1 ≤ (k : ℚ) := by exact_mod_cast hk
    rw [abs_of_nonneg (by linarith), abs_of_nonpos (by linarith)]
    linarith
  · have hk' : (k : ℚ) ≤ (⌊q⌋ : ℚ) := by exact_mod_cast hk
    rw [abs_of_nonpos (by push_cast; linarith), abs_of_nonneg (by linarith)]
    push_cast at hb ⊢
    linarith
  · have hk' : (⌊q⌋ : ℚ) + 1 ≤ (k : ℚ) := by exact_mod_cast hk
    rw [abs_of_nonpos (by push_cast; linarith), abs_of_nonpos (by linarith)]
    push_cast at hb ⊢
    linarith

end Helpers

section SummarizeFacts

theorem summarize_subtotal (l : List ℚ) : (summarize l).subtotal = l.sum := by
  simp [summarize, foldl_add_eq_sum]

theorem summarize_net_payable_eq (l : List ℚ) :
    (summarize l).net_payable = ((pyRound l.sum : ℤ) : ℚ) := by
  simp [summarize, foldl_add_eq_sum]

end SummarizeFacts

/-- C3: for every sequence of amounts the computed triple satisfies
`net_payable = subtotal + rounding` exactly (equivalently
`rounding = net_payable - subtotal`), and `net_payable` is integer-valued,
i.e. has zero fractional part.  (The code guarantees this for all inputs,
in particular for the non-negative finite sequences of the claim.) -/
theorem summarize_net_eq_subtotal_add_rounding (l : List ℚ) :
    (summarize l).net_payable = (summarize l).subtotal + (summarize l).rounding ∧
      ∃ k : ℤ, (summarize l).net_payable = (k : ℚ) := by
  rw [summarize_def]
  exact ⟨by ring, ⟨pyRound l.sum, rfl⟩⟩

/-- C9: the rounding adjustment always satisfies `|rounding| ≤ 1/2`, and
`net_payable` is a nearest integer to `subtotal`: no integer is strictly
closer to the subtotal than the net payable. -/
theorem summarize_rounding_le_half (l : List ℚ) :
    |(summarize l).rounding| ≤ 1/2 ∧
      ∀ k : ℤ, |(summarize l).subtotal - (summarize l).net_payable| ≤
        |(summarize l).subtotal - (k : ℚ)| := by
  rw [summarize_def]
  exact ⟨pyRound_abs_le l.sum, fun k => pyRound_nearest l.sum k⟩

/-- C1 (amended): `net_payable` is `subtotal` rounded to zero decimal
places under Python's round-half-to-even policy, not round-half-up: it is
within half a unit of the subtotal, strictly within half a unit when the
fractional part is not exactly 1/2, and at an exact tie it is the even
neighbour (so a subtotal of 100.5 yields 100, not 101). -/
theorem summarize_net_payable_nearest_even (l : List ℚ) :
    |(summarize l).subtotal - (summarize l).net_payable| ≤ 1/2 ∧
      ((summarize l).subtotal - (⌊(summarize l).subtotal⌋ : ℚ) = 1/2 →
        ∃ k : ℤ, (summarize l).net_payable = 2 * (k : ℚ)) ∧
      ((summarize l).subtotal - (⌊(summarize l).subtotal⌋ : ℚ) ≠ 1/2 →
        |(summarize l).subtotal - (summarize l).net_payable| < 1/2) := by
  rw [summarize_def]
  refine ⟨by rw [abs_sub_comm]; exact pyRound_abs_le l.sum, ?_, ?_⟩
  · intro h
    have he := pyRound_tie_imp_even l.sum h
    refine ⟨pyRound l.sum / 2, ?_⟩
    show ((pyRound l.sum : ℤ) : ℚ) = 2 * ((pyRound l.sum / 2 : ℤ) : ℚ)
    have h2 : 2 * (pyRound l.sum / 2) = pyRound l.sum := by omega
    exact_mod_cast h2.symm
  · intro h
    rw [abs_sub_comm]
    exact pyRound_strict l.sum h

/-- C1 witness: instantiating the tie clause at the concrete input
`[100.5]`: the resulting net payable is an even integer. -/
theorem summarize_net_payable_nearest_even_witness :
    ∃ k : ℤ, (summarize [(100.5 : ℚ)]).net_payable = 2 * (k : ℚ) := by
  apply (summarize_net_payable_nearest_even [(100.5 : ℚ)]).2.1
  rw [summarize_subtotal]
  have hs : ([(100.5 : ℚ)]).sum = 100.5 := by simp
  have hf : ⌊(100.5 : ℚ)⌋ = 100 := by
    rw [Int.floor_eq_iff] <;> norm_num
  rw [hs, hf]
  norm_num

/-- C1 counterexample: on the single line item `100.5` the code returns
`net_payable = 100` (Python `round` ties to even), while the claimed
round-half-up policy of the subtotal demands 101. -/
theorem summarize_halfUp_counterexample :
    (summarize [(100.5 : ℚ)]).net_payable = 100 ∧
      round_half_up ((summarize [(100.5 : ℚ)]).subtotal) = 101 := by
  have hs : ([(100.5 : ℚ)]).sum = 100.5 := by simp
  constructor
  · rw [summarize_net_payable_eq, hs]
    have hp : pyRound (100.5 : ℚ) = 100 :=
      pyRound_tie_even (f := 100) (by norm_num) (by decide)
    rw [hp]
    norm_num
  · rw [summarize_subtotal, hs]
    unfold round_half_up
    rw [if_pos (by norm_num)]
    have h1 : (100.5 + 1/2 : ℚ) = ((101 : ℤ) : ℚ) := by norm_num
    rw [h1, Int.floor_intCast]

/-- C2 (amended): the implemented summary computation performs no
validation: a negative element is accepted and contributes its (negative)
value to the subtotal exactly like any other amount, and the computation
always produces a `BillingSummary` — no `InvalidLineItem` failure exists at
this layer (rejection of negative amounts happens only in the separate UI
validation code before this function is reached). -/
theorem summarize_no_validation (l1 l2 : List ℚ) (a : ℚ) (_ha : a < 0) :
    (summarize (l1 ++ a :: l2)).subtotal = (summarize (l1 ++ 0 :: l2)).subtotal + a := by
  rw [summarize_subtotal, summarize_subtotal]
  simp [List.sum_append]
  ring

/-- C2 witness: the amended theorem applied at the concrete negative
line item `-1`. -/
theorem summarize_no_validation_witness :
    (summarize ([] ++ (-1 : ℚ) :: [])).subtotal =
      (summarize ([] ++ (0 : ℚ) :: [])).subtotal + (-1) :=
  summarize_no_validation [] [] (-1) (by norm_num)

/-- C2 counterexample: `summarize [-1.0]` does not fail with
`InvalidLineItem` and does produce a `BillingSummary`: the concrete result
is `⟨-1, 0, -1⟩`. -/
theorem summarize_negative_counterexample :
    summarize [(-1 : ℚ)] = ⟨-1, 0, -1⟩ := by
  have hs : ([(-1 : ℚ)]).sum = -1 := by simp
  have hp : pyRound (-1 : ℚ) = -1 :=
    pyRound_floor (f := -1) (by norm_num) (by norm_num)
  rw [summarize_def, hs, hp]
  norm_num

/-- C7: `summarize [100.25, 50.50, 25.00]` yields `subtotal = 175.75`,
`rounding = 0.25` and `net_payable = 176`. -/
theorem summarize_example_17575 :
    summarize [(100.25 : ℚ), 50.50, 25.00] = ⟨175.75, 0.25, 176⟩ := by
  have hs : ([(100.25 : ℚ), 50.50, 25.00]).sum = 175.75 := by norm_num
  have hp : pyRound (175.75 : ℚ) = 176 :=
    pyRound_up (f := 175) (by norm_num) (by norm_num)
  rw [summarize_def, hs, hp]
  norm_num

/-- C8: a line-item amount cell that fails numeric parsing (modelled as
`none`) is silently coerced to `0.0`: replacing it by an explicit `0`
amount gives the identical summary, and dropping it leaves the subtotal
unchanged; the computation succeeds on every input sequence. -/
theorem summarizeRows_unparseable_coerced_zero (l1 l2 : List (Option ℚ)) :
    summarizeRows (l1 ++ none :: l2) = summarizeRows (l1 ++ some 0 :: l2) ∧
      (summarizeRows (l1 ++ none :: l2)).subtotal = (summarizeRows (l1 ++ l2)).subtotal := by
  constructor
  · unfold summarizeRows
    congr 1
    simp [toAmount]
  · unfold summarizeRows
    rw [summarize_subtotal, summarize_subtotal]
    simp [toAmount, List.sum_append]

/-- C10: when more line-item rows are supplied than the template table has
data rows, exactly the first `available_data_rows` rows are written, yet
the subtotal is computed over all supplied rows: it equals the subtotal of
the written rows plus the amounts of the rows that are never rendered. -/
theorem writtenRows_capacity_totals_all (rows : List (Option ℚ)) (available_data_rows : ℕ)
    (h : available_data_rows < rows.length) :
    (writtenRows rows available_data_rows).length = available_data_rows ∧
      (summarizeRows rows).subtotal =
        (summarizeRows (writtenRows rows available_data_rows)).subtotal +
          ((rows.drop available_data_rows).map toAmount).sum := by
  have hmin : rows_to_fill rows available_data_rows = available_data_rows := by
    unfold rows_to_fill
    omega
  constructor
  · unfold writtenRows
    rw [hmin, List.length_take]
    omega
  · unfold summarizeRows writtenRows
    rw [summarize_subtotal, summarize_subtotal, hmin]
    conv_lhs => rw [← List.take_append_drop available_data_rows rows]
    simp [List.sum_append]

/-- C10 witness: two rows supplied, template capacity one: one row written,
subtotal covers both amounts. -/
theorem writtenRows_capacity_totals_all_witness :
    (writtenRows [some 1, some 2] 1).length = 1 ∧
      (summarizeRows [some (1 : ℚ), some 2]).subtotal =
        (summarizeRows (writtenRows [some 1, some 2] 1)).subtotal +
          (([some (1 : ℚ), some 2].drop 1).map toAmount).sum :=
  writtenRows_capacity_totals_all [some 1, some 2] 1 (by simp)

theorem to_words_natCast (n : ℕ) : to_words (.fin (n : ℚ)) = wordsFin n 0 := by
  simp only [to_words]
  rw [if_neg (not_lt.mpr (by positivity)), Int.floor_natCast]
  simp

/-- C5: the converter renders `0` as "Zero", the scale boundaries `100000`
as "One Lakh" and `10000000` as "One Crore", and the two-digit values `21`
as "Twenty One" and `19` as "Nineteen". -/
theorem to_words_examples :
    to_words (.fin 0) = .ok "Zero" ∧
      to_words (.fin 100000) = .ok "One Lakh" ∧
      to_words (.fin 10000000) = .ok "One Crore" ∧
      to_words (.fin 21) = .ok "Twenty One" ∧
      to_words (.fin 19) = .ok "Nineteen" := by
  refine ⟨?_, ?_, ?_, ?_, ?_⟩
  · have h := to_words_natCast 0
    rw [Nat.cast_zero] at h
    rw [h]
    rfl
  · have h := to_words_natCast 100000
    rw [Nat.cast_ofNat] at h
    rw [h]
    rfl
  · have h := to_words_natCast 10000000
    rw [Nat.cast_ofNat] at h
    rw [h]
    rfl
  · have h := to_words_natCast 21
    rw [Nat.cast_ofNat] at h
    rw [h]
    rfl
  · have h := to_words_natCast 19
    rw [Nat.cast_ofNat] at h
    rw [h]
    rfl

/-- C6: the converter fails with `InvalidAmount` on NaN, on both
infinities and on every negative finite input; it fails with
`UnsupportedMagnitude` on every finite non-negative input whose integer
part is at least 10^17; and on every other finite non-negative input it
returns a words string rather than silently truncating. -/
theorem to_words_error_classification (q : ℚ) :
    to_words .nan = .error .invalidAmount ∧
      to_words .posInf = .error .invalidAmount ∧
      to_words .negInf = .error .invalidAmount ∧
      (q < 0 → to_words (.fin q) = .error .invalidAmount) ∧
      (0 ≤ q → (10 ^ 17 : ℤ) ≤ ⌊q⌋ → to_words (.fin q) = .error .unsupportedMagnitude) ∧
      (0 ≤ q → ⌊q⌋ < (10 ^ 17 : ℤ) → ∃ s, to_words (.fin q) = .ok s) := by
  refine ⟨rfl, rfl, rfl, ?_, ?_, ?_⟩
  · intro hq
    simp only [to_words]
    rw [if_pos hq]
  · intro hq hmag
    simp only [to_words, wordsFin]
    rw [if_neg (not_lt.mpr hq), if_pos (by omega)]
  · intro hq hmag
    simp only [to_words, wordsFin]
    rw [if_neg (not_lt.mpr hq), if_neg (by omega)]
    split_ifs <;> exact ⟨_, rfl⟩

/-- C6 witness: the classification applied at the concrete inputs NaN,
`-5`, `10^17` and `19`. -/
theorem to_words_error_classification_witness :
    to_words .nan = .error .invalidAmount ∧
      to_words (.fin (-5)) = .error .invalidAmount ∧
      to_words (.fin ((10 : ℚ) ^ 17)) = .error .unsupportedMagnitude ∧
      ∃ s, to_words (.fin 19) = .ok s := by
  have hfl : ⌊((10 : ℚ) ^ 17)⌋ = 10 ^ 17 := by
    rw [show ((10 : ℚ) ^ 17) = (((10 ^ 17 : ℤ)) : ℚ) by norm_num, Int.floor_intCast]
  have hfl19 : ⌊(19 : ℚ)⌋ = 19 := by
    rw [show (19 : ℚ) = (((19 : ℤ)) : ℚ) by norm_num, Int.floor_intCast]
  refine ⟨(to_words_error_classification 0).1,
    (to_words_error_classification (-5)).2.2.2.1 (by norm_num),
    (to_words_error_classification ((10 : ℚ) ^ 17)).2.2.2.2.1 (by positivity) (by rw [hfl]),
    (to_words_error_classification 19).2.2.2.2.2 (by norm_num) (by rw [hfl19]; norm_num)⟩

section DyadicFacts

theorem bitsAux_zero (fuel : ℕ) : bitsAux fuel 0 = 0 := by
  cases fuel <;> rfl

theorem bitsAux_lt (fuel n : ℕ) (h : n ≤ fuel) : n < 2 ^ bitsAux fuel n := by
  induction fuel generalizing n with
  | zero =>
    have hn : n = 0 := by omega
    subst hn
    simp [bitsAux_zero]
  | succ f ih =>
    by_cases hn : n = 0
    · subst hn
      simp [bitsAux_zero]
    · have h2 : n / 2 ≤ f := by omega
      have h3 := ih (n / 2) h2
      simp only [bitsAux, if_neg hn]
      rw [pow_succ]
      omega

theorem bits_lt_pow (n : ℕ) : n < 2 ^ bits n :=
  bitsAux_lt n n le_rfl

theorem bitsAux_pos (fuel n : ℕ) (h1 : 1 ≤ n) (h : n ≤ fuel) : 1 ≤ bitsAux fuel n := by
  cases fuel with
  | zero => omega
  | succ f =>
    simp only [bitsAux, if_neg (by omega : ¬ n = 0)]
    omega

theorem bitsAux_le (fuel n : ℕ) (h1 : 1 ≤ n) (h : n ≤ fuel) : 2 ^ (bitsAux fuel n - 1) ≤ n := by
  induction fuel generalizing n with
  | zero => omega
  | succ f ih =>
    have hn : ¬ n = 0 := by omega
    simp only [bitsAux, if_neg hn]
    by_cases h2 : n / 2 = 0
    · have hone : n = 1 := by omega
      subst hone
      norm_num [bitsAux_zero]
    · have h3 : 1 ≤ n / 2 := by omega
      have h4 : n / 2 ≤ f := by omega
      have h5 := ih (n / 2) h3 h4
      have h6 := bitsAux_pos f (n / 2) h3 h4
      have h7 : bitsAux f (n / 2) + 1 - 1 = (bitsAux f (n / 2) - 1) + 1 := by omega
      rw [h7, pow_succ]
      omega

theorem pow_bits_le (n : ℕ) (h : 1 ≤ n) : 2 ^ (bits n - 1) ≤ n :=
  bitsAux_le n n h le_rfl

theorem bits_pos (n : ℕ) (h : 1 ≤ n) : 1 ≤ bits n :=
  bitsAux_pos n n h le_rfl

theorem pow2_eq_zpow (e : ℤ) : pow2 e = (2 : ℚ) ^ e := by
  unfold pow2
  split_ifs with h
  · push_cast
    rw [← zpow_natCast (2 : ℚ) e.toNat, Int.toNat_of_nonneg h]
  · push_cast
    rw [one_div, ← zpow_natCast (2 : ℚ) (-e).toNat, Int.toNat_of_nonneg (by omega), ← zpow_neg,
      neg_neg]

theorem dval_mk (m e : ℤ) : dval ⟨m, e⟩ = (m : ℚ) * (2 : ℚ) ^ e := by
  rw [dval, pow2_eq_zpow]

theorem dval_eq (x : Dyadic) : dval x = (x.m : ℚ) * (2 : ℚ) ^ x.e := by
  rw [dval, pow2_eq_zpow]

theorem divRound_exact (a b : ℕ) (hb : b ≠ 0) (hdvd : b ∣ a) : divRound a b = a / b := by
  obtain ⟨u, rfl⟩ := hdvd
  have hr : b * u % b = 0 := Nat.mul_mod_right b u
  simp only [divRound, hr]
  rw [if_pos (by omega)]

theorem cast_pow_toNat (t : ℤ) (ht : 0 ≤ t) : ((2 ^ t.toNat : ℕ) : ℚ) = (2 : ℚ) ^ t := by
  push_cast
  rw [← zpow_natCast (2 : ℚ) t.toNat, Int.toNat_of_nonneg ht]

theorem roundD_pos_wide (m e er : ℤ) (k : ℕ) (hv : (m : ℚ) * (2 : ℚ) ^ e = (k : ℚ))
    (hs : er - e ≤ 0) :
    dval ⟨m * ((2 ^ (-(er - e)).toNat : ℕ) : ℤ), er⟩ = (k : ℚ) := by
  rw [dval_mk]
  push_cast
  rw [← zpow_natCast (2 : ℚ) (-(er - e)).toNat, Int.toNat_of_nonneg (by omega)]
  rw [mul_assoc, ← zpow_add₀ (by norm_num : (2 : ℚ) ≠ 0)]
  rw [show -(er - e) + er = e by ring]
  exact hv

theorem roundD_pos_shift (m e er : ℤ) (k : ℕ) (hm : 0 < m)
    (hv : (m : ℚ) * (2 : ℚ) ^ e = (k : ℚ)) (her : er ≤ 0) (hs : 0 < er - e) :
    dval ⟨(divRound m.natAbs (2 ^ (er - e).toNat) : ℤ), er⟩ = (k : ℚ) := by
  have h2 : (2 : ℚ) ≠ 0 := by norm_num
  set t : ℕ := k * 2 ^ (-er).toNat with ht_def
  have htQ : (t : ℚ) = (k : ℚ) * (2 : ℚ) ^ (-er) := by
    rw [ht_def]
    push_cast
    rw [← zpow_natCast (2 : ℚ) (-er).toNat, Int.toNat_of_nonneg (by omega)]
  have hsQ : ((2 ^ (er - e).toNat : ℕ) : ℚ) = (2 : ℚ) ^ (er - e) :=
    cast_pow_toNat _ (by omega)
  have hnm : ((m.natAbs : ℕ) : ℚ) = (m : ℚ) := by
    rw [Int.cast_natAbs]
    exact_mod_cast congrArg (fun z : ℤ => (z : ℚ)) (abs_of_nonneg hm.le)
  have hn_eq : m.natAbs = t * 2 ^ (er - e).toNat := by
    have hm' : (m : ℚ) = (k : ℚ) * (2 : ℚ) ^ (-e) := by
      have hpe : (0 : ℚ) < (2 : ℚ) ^ e := zpow_pos (by norm_num) e
      field_simp [zpow_neg]
      linear_combination hv
    have hQ : ((m.natAbs : ℕ) : ℚ) = ((t * 2 ^ (er - e).toNat : ℕ) : ℚ) := by
      rw [hnm, Nat.cast_mul, hsQ, htQ]
      rw [hm', mul_assoc, ← zpow_add₀ h2, show -er + (er - e) = -e by ring]
    exact_mod_cast hQ
  have hpow_ne : (2 : ℕ) ^ (er - e).toNat ≠ 0 := by positivity
  have hdr : divRound m.natAbs (2 ^ (er - e).toNat) = t := by
    rw [divRound_exact _ _ hpow_ne ⟨t, by rw [hn_eq]; ring⟩, hn_eq]
    exact Nat.mul_div_cancel t (Nat.pos_of_ne_zero hpow_ne)
  rw [hdr, dval_mk, Int.cast_natCast, htQ, mul_assoc, ← zpow_add₀ h2,
    show -er + er = 0 by ring]
  simp

end DyadicFacts

section DyadicFactsTwo

theorem zpow_toNat_split (c : ℤ) :
    (2 : ℚ) ^ c * ((2 ^ (-c).toNat : ℕ) : ℚ) = ((2 ^ c.toNat : ℕ) : ℚ) := by
  push_cast
  rw [← zpow_natCast (2 : ℚ) c.toNat, ← zpow_natCast (2 : ℚ) (-c).toNat,
    ← zpow_add₀ (by norm_num : (2 : ℚ) ≠ 0)]
  congr 1
  omega

theorem roundD_nat (x : Dyadic) (k : ℕ) (hv : dval x = (k : ℚ)) (hk : k < 2 ^ 53) :
    dval (roundD x) = (k : ℚ) := by
  obtain ⟨m, e⟩ := x
  by_cases hm : m = 0
  · subst hm
    have hk0 : (k : ℚ) = 0 := by
      rw [← hv, dval_mk]
      simp
    have hr0 : roundD ⟨0, e⟩ = ⟨0, 0⟩ := by simp [roundD]
    rw [hr0, dval_mk]
    simp [hk0]
  · have hvmk : (m : ℚ) * (2 : ℚ) ^ e = (k : ℚ) := by rw [← dval_mk]; exact hv
    have hpow : (0 : ℚ) < (2 : ℚ) ^ e := zpow_pos (by norm_num) e
    have hkpos : 0 < k := by
      rcases Nat.eq_zero_or_pos k with hk0 | hk0
      · exfalso
        apply hm
        rw [hk0] at hvmk
        push_cast at hvmk
        have hm0 : (m : ℚ) = 0 := by
          rcases mul_eq_zero.mp hvmk with h | h
          · exact h
          · exact absurd h (ne_of_gt hpow)
        exact_mod_cast hm0
      · exact hk0
    have hmpos : 0 < m := by
      rcases lt_trichotomy m 0 with h | h | h
      · exfalso
        have hmQ : (m : ℚ) < 0 := by exact_mod_cast h
        have hneg : (m : ℚ) * (2 : ℚ) ^ e < 0 := mul_neg_of_neg_of_pos hmQ hpow
        rw [hvmk] at hneg
        have hge : (0 : ℚ) ≤ (k : ℚ) := by positivity
        linarith
      · exact absurd h hm
      · exact h
    have hn1 : 1 ≤ m.natAbs := by omega
    have hnmQ : ((m.natAbs : ℕ) : ℚ) = (m : ℚ) := by
      rw [Int.cast_natAbs]
      exact_mod_cast congrArg (fun z : ℤ => (z : ℚ)) (abs_of_nonneg hmpos.le)
    have hnlb : (2 : ℚ) ^ ((bits m.natAbs : ℤ) - 1) ≤ (m : ℚ) := by
      have hb := pow_bits_le m.natAbs hn1
      have hb1 : 1 ≤ bits m.natAbs := bits_pos m.natAbs hn1
      have hcast : ((2 ^ (bits m.natAbs - 1) : ℕ) : ℚ) ≤ ((m.natAbs : ℕ) : ℚ) := by
        exact_mod_cast hb
      rw [hnmQ] at hcast
      calc (2 : ℚ) ^ ((bits m.natAbs : ℤ) - 1)
          = (2 : ℚ) ^ (((bits m.natAbs - 1 : ℕ)) : ℤ) := by congr 1; omega
        _ = (2 : ℚ) ^ (bits m.natAbs - 1 : ℕ) := zpow_natCast _ _
        _ ≤ (m : ℚ) := by
            rw [show ((2 : ℚ) ^ (bits m.natAbs - 1 : ℕ)) =
              ((2 ^ (bits m.natAbs - 1) : ℕ) : ℚ) by push_cast; ring]
            exact hcast
    have hklt : (k : ℚ) < (2 : ℚ) ^ (53 : ℤ) := by
      have h1 : ((k : ℕ) : ℚ) < ((2 ^ 53 : ℕ) : ℚ) := by exact_mod_cast hk
      rw [show ((2 ^ 53 : ℕ) : ℚ) = (2 : ℚ) ^ (53 : ℤ) by
        rw [show (53 : ℤ) = ((53 : ℕ) : ℤ) from rfl, zpow_natCast]
        push_cast
        norm_num] at h1
      exact h1
    have hc52 : (bits m.natAbs : ℤ) - 1 + e ≤ 52 := by
      by_contra hcc
      push_neg at hcc
      have h53 : (53 : ℤ) ≤ (bits m.natAbs : ℤ) - 1 + e := by omega
      have hmono := zpow_le_zpow_right₀ (by norm_num : (1 : ℚ) ≤ 2) h53
      rw [zpow_add₀ (by norm_num : (2 : ℚ) ≠ 0)] at hmono
      have hle : (2 : ℚ) ^ ((bits m.natAbs : ℤ) - 1) * (2 : ℚ) ^ e ≤ (m : ℚ) * (2 : ℚ) ^ e :=
        mul_le_mul_of_nonneg_right hnlb hpow.le
      rw [hvmk] at hle
      linarith
    simp only [roundD]
    rw [if_neg hm]
    split_ifs <;>
      first
        | omega
        | exact roundD_pos_wide m e _ k hvmk (by omega)
        | exact roundD_pos_shift m e _ k hmpos hvmk (by omega) (by omega)

theorem ratToD_branch (den u : ℕ) (er : ℤ) (hden : den ≠ 0) (her : er ≤ 0) :
    dval ⟨(divRound (den * u * 2 ^ (-er).toNat) den : ℤ), er⟩ = (u : ℚ) := by
  have hk : den * u * 2 ^ (-er).toNat = den * (u * 2 ^ (-er).toNat) := by ring
  have hdr : divRound (den * u * 2 ^ (-er).toNat) den = u * 2 ^ (-er).toNat := by
    rw [divRound_exact _ _ hden ⟨u * 2 ^ (-er).toNat, hk⟩, hk,
      Nat.mul_div_cancel_left _ (Nat.pos_of_ne_zero hden)]
  rw [hdr, dval_mk, Int.cast_natCast]
  push_cast
  rw [← zpow_natCast (2 : ℚ) (-er).toNat, Int.toNat_of_nonneg (by omega), mul_assoc,
    ← zpow_add₀ (by norm_num : (2 : ℚ) ≠ 0), show -er + er = 0 by ring]
  simp

end DyadicFactsTwo


section RatToDExact

theorem ratToD_exact (den u : ℕ) (hden : den ≠ 0) (hult : u < 2 ^ 53) :
    dval (ratToD (den * u) den) = (u : ℚ) := by
  by_cases hu0 : u = 0
  · subst hu0
    have h0 : den * 0 = 0 := by ring
    rw [h0]
    have hz : ratToD 0 den = ⟨0, 0⟩ := by simp [ratToD]
    rw [hz, dval_mk]
    simp
  · have h2ne : (2 : ℚ) ≠ 0 := by norm_num
    have hnum0 : ¬ den * u = 0 := by positivity
    have hdpos : 1 ≤ den := Nat.pos_of_ne_zero hden
    have hupos : 1 ≤ u := Nat.pos_of_ne_zero hu0
    have hQden : (0 : ℚ) < (den : ℚ) := by exact_mod_cast hdpos
    have hQu : (0 : ℚ) < (u : ℚ) := by exact_mod_cast hupos
    have hn1 : 1 ≤ den * u := Nat.one_le_iff_ne_zero.mpr hnum0
    have hkQ : ((den * u : ℕ) : ℚ) = (den : ℚ) * (u : ℚ) := by push_cast; ring
    have hu53 : (u : ℚ) < (2 : ℚ) ^ (53 : ℤ) := by
      have h1 : ((u : ℕ) : ℚ) < ((2 ^ 53 : ℕ) : ℚ) := by exact_mod_cast hult
      rw [show ((2 ^ 53 : ℕ) : ℚ) = (2 : ℚ) ^ (53 : ℤ) by
        rw [show (53 : ℤ) = ((53 : ℕ) : ℤ) from rfl, zpow_natCast]
        push_cast
        norm_num] at h1
      exact h1
    have hlb : (2 : ℚ) ^ (((bits (den * u) : ℤ) - (bits den : ℤ)) - 1) < (u : ℚ) := by
      have hA : (2 : ℚ) ^ ((bits (den * u) : ℤ) - 1) ≤ ((den * u : ℕ) : ℚ) := by
        have hb := pow_bits_le (den * u) hn1
        have hb1 : 1 ≤ bits (den * u) := bits_pos _ hn1
        calc (2 : ℚ) ^ ((bits (den * u) : ℤ) - 1)
            = (2 : ℚ) ^ (((bits (den * u) - 1 : ℕ)) : ℤ) := by congr 1; omega
          _ = (2 : ℚ) ^ (bits (den * u) - 1 : ℕ) := zpow_natCast _ _
          _ ≤ ((den * u : ℕ) : ℚ) := by exact_mod_cast hb
      have hB : ((den * u : ℕ) : ℚ) < (2 : ℚ) ^ ((bits den : ℕ) : ℤ) * (u : ℚ) := by
        have hd : (den : ℚ) < (2 : ℚ) ^ ((bits den : ℕ) : ℤ) := by
          have hbd := bits_lt_pow den
          rw [zpow_natCast]
          exact_mod_cast hbd
        rw [hkQ]
        exact mul_lt_mul_of_pos_right hd hQu
      have hAB := lt_of_le_of_lt hA hB
      have hsplit : (2 : ℚ) ^ ((bits (den * u) : ℤ) - 1) =
          (2 : ℚ) ^ (((bits (den * u) : ℤ) - (bits den : ℤ)) - 1) *
            (2 : ℚ) ^ ((bits den : ℕ) : ℤ) := by
        rw [← zpow_add₀ h2ne]
        congr 1
        ring
      rw [hsplit] at hAB
      have hbpos : (0 : ℚ) < (2 : ℚ) ^ ((bits den : ℕ) : ℤ) := zpow_pos (by norm_num) _
      have hXu : (2 : ℚ) ^ (((bits (den * u) : ℤ) - (bits den : ℤ)) - 1) *
          (2 : ℚ) ^ ((bits den : ℕ) : ℤ) < (u : ℚ) * (2 : ℚ) ^ ((bits den : ℕ) : ℤ) := by
        rw [mul_comm ((u : ℚ)) _]
        exact hAB
      exact lt_of_mul_lt_mul_right hXu hbpos.le
    have hcbound : (bits (den * u) : ℤ) - (bits den : ℤ) - 1 ≤ 52 := by
      by_contra hcc
      push_neg at hcc
      have h53 : (53 : ℤ) ≤ (bits (den * u) : ℤ) - (bits den : ℤ) - 1 := by omega
      have hmono := zpow_le_zpow_right₀ (by norm_num : (1 : ℚ) ≤ 2) h53
      linarith
    have hcase1 : den * 2 ^ ((bits (den * u) : ℤ) - (bits den : ℤ)).toNat ≤
        den * u * 2 ^ (-((bits (den * u) : ℤ) - (bits den : ℤ))).toNat →
        (bits (den * u) : ℤ) - (bits den : ℤ) ≤ 52 := by
      intro hC
      have hQ : (den : ℚ) * ((2 ^ ((bits (den * u) : ℤ) - (bits den : ℤ)).toNat : ℕ) : ℚ) ≤
          ((den * u : ℕ) : ℚ) *
            ((2 ^ (-((bits (den * u) : ℤ) - (bits den : ℤ))).toNat : ℕ) : ℚ) := by
        exact_mod_cast hC
      rw [← zpow_toNat_split ((bits (den * u) : ℤ) - (bits den : ℤ)), hkQ] at hQ
      have htpos : (0 : ℚ) <
          ((2 ^ (-((bits (den * u) : ℤ) - (bits den : ℤ))).toNat : ℕ) : ℚ) := by positivity
      have hcancel : (den : ℚ) * (2 : ℚ) ^ ((bits (den * u) : ℤ) - (bits den : ℤ)) ≤
          (den : ℚ) * (u : ℚ) := by
        have h' := le_of_mul_le_mul_right (by linarith [hQ] :
          ((den : ℚ) * (2 : ℚ) ^ ((bits (den * u) : ℤ) - (bits den : ℤ))) *
            ((2 ^ (-((bits (den * u) : ℤ) - (bits den : ℤ))).toNat : ℕ) : ℚ) ≤
          ((den : ℚ) * (u : ℚ)) *
            ((2 ^ (-((bits (den * u) : ℤ) - (bits den : ℤ))).toNat : ℕ) : ℚ)) htpos
        exact h'
      have hpc : (2 : ℚ) ^ ((bits (den * u) : ℤ) - (bits den : ℤ)) ≤ (u : ℚ) :=
        le_of_mul_le_mul_left hcancel hQden
      have hlt : (2 : ℚ) ^ ((bits (den * u) : ℤ) - (bits den : ℤ)) < (2 : ℚ) ^ (53 : ℤ) :=
        lt_of_le_of_lt hpc hu53
      have := (zpow_lt_zpow_iff_right₀ (by norm_num : (1 : ℚ) < 2)).mp hlt
      omega
    simp only [ratToD]
    rw [if_neg hnum0]
    split_ifs with h1 h2 h3 <;>
      first
        | (exfalso; omega)
        | (exfalso; have hcc := hcase1 (by assumption); omega)
        | exact ratToD_branch den u _ hden (by omega)

end RatToDExact

section FloatSum

theorem addD_val (x y : Dyadic) (k j : ℕ) (hx : dval x = (k : ℚ)) (hy : dval y = (j : ℚ))
    (hkj : k + j < 2 ^ 53) : dval (addD x y) = ((k + j : ℕ) : ℚ) := by
  obtain ⟨a, p⟩ := x
  obtain ⟨b, q⟩ := y
  have h2ne : (2 : ℚ) ≠ 0 := by norm_num
  have hx' : (a : ℚ) * (2 : ℚ) ^ p = (k : ℚ) := by rw [← dval_mk]; exact hx
  have hy' : (b : ℚ) * (2 : ℚ) ^ q = (j : ℚ) := by rw [← dval_mk]; exact hy
  have hone : dval (⟨a * ((2 ^ (p - (if p ≤ q then p else q)).toNat : ℕ) : ℤ) +
      b * ((2 ^ (q - (if p ≤ q then p else q)).toNat : ℕ) : ℤ),
      if p ≤ q then p else q⟩ : Dyadic) = ((k + j : ℕ) : ℚ) := by
    rw [dval_mk]
    push_cast
    by_cases hpq : p ≤ q
    · rw [if_pos hpq]
      rw [← zpow_natCast (2 : ℚ) (p - p).toNat, ← zpow_natCast (2 : ℚ) (q - p).toNat,
        Int.toNat_of_nonneg (by omega), Int.toNat_of_nonneg (by omega)]
      rw [add_mul, mul_assoc, mul_assoc, ← zpow_add₀ h2ne, ← zpow_add₀ h2ne,
        show p - p + p = p by ring, show q - p + p = q by ring, hx', hy']
    · rw [if_neg hpq]
      rw [← zpow_natCast (2 : ℚ) (p - q).toNat, ← zpow_natCast (2 : ℚ) (q - q).toNat,
        Int.toNat_of_nonneg (by omega), Int.toNat_of_nonneg (by omega)]
      rw [add_mul, mul_assoc, mul_assoc, ← zpow_add₀ h2ne, ← zpow_add₀ h2ne,
        show p - q + q = p by ring, show q - q + q = q by ring, hx', hy']
  simp only [addD]
  exact roundD_nat _ (k + j) hone hkj

theorem foldl_addD_natvals (l : List Dyadic) (vs : List ℕ)
    (hl : List.Forall₂ (fun (d : Dyadic) (v : ℕ) => dval d = (v : ℚ)) l vs) :
    ∀ (acc : Dyadic) (k : ℕ), dval acc = (k : ℚ) → k + vs.sum < 2 ^ 53 →
      dval (l.foldl addD acc) = ((k + vs.sum : ℕ) : ℚ) := by
  induction hl with
  | nil =>
    intro acc k hacc hb
    simpa using hacc
  | @cons d v l2 vs2 hdv htl ih =>
    intro acc k hacc hb
    rw [List.foldl_cons]
    have hb' : v + vs2.sum = (v :: vs2).sum := by simp
    have hstep : dval (addD acc d) = ((k + v : ℕ) : ℚ) :=
      addD_val acc d k v hacc hdv (by simp only [List.sum_cons] at hb; omega)
    have hres := ih (addD acc d) (k + v) hstep (by simp only [List.sum_cons] at hb; omega)
    rw [hres]
    congr 1
    simp only [List.sum_cons]
    omega

end FloatSum

/-- C4 (amended): the implemented `subtotal = sum(amounts)` is the
left-to-right IEEE-754 binary64 floating-point sum, not a decimal-exact
sum: for whole-rupee amounts (any list of naturals whose total is below
2^53) the float sum is exact, but for two-decimal amounts it can drift
from the exact decimal sum (see the counterexample: one hundred times
0.10 does not sum to exactly 10.00). -/
theorem floatSubtotal_int_exact (l : List ℕ) (h : l.sum < 2 ^ 53) :
    floatSubtotal (l.map (· * 100)) = (l.sum : ℚ) := by
  unfold floatSubtotal sumD
  rw [List.map_map]
  have hforall : List.Forall₂ (fun (d : Dyadic) (v : ℕ) => dval d = (v : ℚ))
      (l.map ((fun c => ratToD c 100) ∘ (· * 100))) l := by
    rw [List.forall₂_map_left_iff]
    rw [List.forall₂_same]
    intro r hr
    have hrle : r ≤ l.sum := List.single_le_sum (fun x _ => Nat.zero_le x) r hr
    show dval (ratToD (r * 100) 100) = (r : ℚ)
    rw [Nat.mul_comm r 100]
    exact ratToD_exact 100 r (by norm_num) (by omega)
  have hres := foldl_addD_natvals _ l hforall ⟨0, 0⟩ 0 (by rw [dval_mk]; simp) (by omega)
  simpa using hres

/-- C4 witness: the amended exactness statement applied to the concrete
whole-rupee amounts `[3, 4]` (300 and 400 minor units). -/
theorem floatSubtotal_int_exact_witness :
    floatSubtotal (([3, 4] : List ℕ).map (· * 100)) = (([3, 4] : List ℕ).sum : ℚ) :=
  floatSubtotal_int_exact [3, 4] (by norm_num)

set_option maxRecDepth 100000 in
/-- C4 counterexample: storing the two-decimal amount `0.10` as a double
and summing it one hundred times in float arithmetic, exactly as
`subtotal = sum(amounts)` does, yields a subtotal different from the exact
decimal sum 10.00 (the computed value is 5629499534213109·2⁻⁴⁹ =
9.999999999999998…). -/
theorem floatSubtotal_drift_counterexample :
    floatSubtotal (List.replicate 100 10) ≠ 10 := by
  have h : sumD ((List.replicate 100 10).map (fun c => ratToD c 100)) =
      ⟨5629499534213109, -49⟩ := by decide
  unfold floatSubtotal
  rw [h, dval_mk]
  rw [show (-49 : ℤ) = -((49 : ℕ) : ℤ) from rfl, zpow_neg, zpow_natCast]
  norm_num
